import Mathlib

/-!
Verification of the BFFpp byte-machine, its token-tracing variant, the grid
spatial pairing, and the lineage analyzer's similarity filter, against the
natural-language specification.

The definitions below are shallow embeddings of the C++ sources:
  src/src/emulator.cpp            (plain byte-machine, function emulate)
  src/src/emulator_w_tracer.cpp   (tokenized byte-machine, emulate_w_tracer)
  src/include/emulator_w_tracer.h (bit-packed Token)
  src/src/grid.cpp                (Grid::create_spatial_pairs)
  src/src/forward_pass_analysis.cpp (calculate_similarity, candidate filter)

Machine integers are modelled as Nat / Int with explicit wrap-around where
the C++ types wrap: tape bytes are Fin 256 (uint8_t), the packed token value
is a Nat kept below 2^64 by the same masking the C++ code performs.
-/

namespace BFF

/-- A tape byte, C++ uint8_t.  Fin 256 addition and subtraction wrap modulo
256 exactly as uint8_t arithmetic does. -/
abbrev Byte := Fin 256

/-- Final states of an execution.  The C++ code stores them as the strings
"Terminated", "Finished", "Error, Unmatched [" and "Error, Unmatched ]". -/
inductive EmState where
  | Terminated
  | Finished
  | ErrorUnmatchedOpen
  | ErrorUnmatchedClose
deriving DecidableEq, Repr

/-! ### Token (src/include/emulator_w_tracer.h, src/src/emulator_w_tracer.cpp)

The C++ Token is a single uint64:
  bits 0-7   char, bits 8-23 position, bits 24-63 epoch.
We keep the packed word as a Nat.  The bit operations of the source are
written arithmetically: for a word v < 2^64,
  v & 0xFF                 = v % 256,
  (v >> 8) & 0xFFFF        = v / 256 % 65536,
  v >> 24                  = v / 16777216,
  (v & ~0xFF) | c          = v / 256 * 256 + c      (c < 256),
and the constructor's (epoch << 24) | (position << 8) | character ORs three
bit-disjoint fields, hence equals their sum, with the uint64 shift of epoch
keeping epoch % 2^40 and the uint16 cast keeping position % 2^16. -/
structure Token where
  value : ℕ
deriving DecidableEq, Repr

/-- Token::Token(uint64_t epoch, uint16_t position, uint8_t character):
value = (epoch << 24) | (uint64_t(position) << 8) | character. -/
def Token.make (epoch position character : ℕ) : Token :=
  ⟨16777216 * (epoch % 1099511627776) + 256 * (position % 65536) + character % 256⟩

/-- Token::get_char: value & 0xFF, returned as uint8_t. -/
def Token.get_char (t : Token) : Byte :=
  ⟨t.value % 256, Nat.mod_lt _ (by norm_num)⟩

/-- Token::get_position: (value >> 8) & 0xFFFF. -/
def Token.get_position (t : Token) : ℕ :=
  t.value / 256 % 65536

/-- Token::get_epoch: value >> 24. -/
def Token.get_epoch (t : Token) : ℕ :=
  t.value / 16777216

/-- Token::set_char(uint8_t character): value = (value & 0xFFFFFFFFFFFFFF00) | character. -/
def Token.set_char (t : Token) (character : Byte) : Token :=
  ⟨t.value / 256 * 256 + character.val⟩

/-- Helper of initialize_tokens_with_epoch: the loop pushing
Token(epoch, i, byte_tape[i]) for increasing i. -/
def initTokensGo (epoch : ℕ) : ℕ → List Byte → List Token
  | _, [] => []
  | i, b :: rest => Token.make epoch i b.val :: initTokensGo epoch (i + 1) rest

/-- initialize_tokens_with_epoch (src/src/emulator_w_tracer.cpp): one token
per byte, position = index in the tape. -/
def initialize_tokens_with_epoch (byte_tape : List Byte) (epoch : ℕ) : List Token :=
  initTokensGo epoch 0 byte_tape

/-- initialize_tokens: epoch 0. -/
def initialize_tokens (byte_tape : List Byte) : List Token :=
  initialize_tokens_with_epoch byte_tape 0

/-- tokens_to_bytes: project every token to its char field. -/
def tokens_to_bytes (token_tape : List Token) : List Byte :=
  token_tape.map Token.get_char

lemma Token.get_char_make (epoch position : ℕ) (b : Byte) :
    (Token.make epoch position b.val).get_char = b := by
  have hb := b.isLt
  apply Fin.ext
  simp only [Token.make, Token.get_char]
  omega

lemma tokens_to_bytes_initTokensGo (epoch i : ℕ) (B : List Byte) :
    tokens_to_bytes (initTokensGo epoch i B) = B := by
  induction B generalizing i with
  | nil => rfl
  | cons b rest ih =>
      simp only [initTokensGo, tokens_to_bytes, List.map_cons, Token.get_char_make]
      simpa [tokens_to_bytes] using ih (i + 1)

/-- C8: initializing a token tape from a byte sequence B with any epoch e and
projecting the tokens back to their byte fields yields exactly B. -/
theorem tokens_roundtrip (B : List Byte) (e : ℕ) :
    tokens_to_bytes (initialize_tokens_with_epoch B e) = B :=
  tokens_to_bytes_initTokensGo e 0 B

/-! ### Plain byte-machine (src/src/emulator.cpp)

Instruction bytes, as ASCII: '<' 60, '>' 62, '{' 123, '}' 125, '-' 45,
'+' 43, '.' 46, ',' 44, '[' 91, ']' 93; the distinguished zero is '0' 48. -/

/-- The result struct EmulatorResult of src/include/emulator.h. -/
structure EmulatorResult where
  tape : List Byte
  state : EmState
  iteration : ℕ
  skipped : ℕ
deriving DecidableEq, Repr

/-- The full loop state of emulate at exit, including the local variables
head0_pos, head1_pos and pc_pos that the C++ result struct drops. -/
structure EmRun where
  tape : List Byte
  head0 : ℕ
  head1 : ℕ
  pc : ℕ
  state : EmState
  iteration : ℕ
  skipped : ℕ
deriving DecidableEq, Repr

/-- Depth update of the forward bracket scan: diff++ on '[' and diff-- on
']' (the truncated subtraction is never hit at 0: the scan stops as soon as
the depth reaches 0, so the running depth is always at least 1). -/
def depthFwd (c : Byte) (depth : ℕ) : ℕ :=
  if c = (91 : Byte) then depth + 1
  else if c = (93 : Byte) then depth - 1 else depth

/-- Depth update of the backward bracket scan: diff++ on ']' and diff-- on '['. -/
def depthBwd (c : Byte) (depth : ℕ) : ℕ :=
  if c = (93 : Byte) then depth + 1
  else if c = (91 : Byte) then depth - 1 else depth

/-- Forward bracket scan of emulate: for i from pc+1 while i < tape_size,
update the depth from tape[i]; the first i where the depth reaches 0 is the
match.  The loop is driven by the count = tape.length - i of remaining
positions, so that each step reads tape[i] with i < tape.length, exactly
the C++ loop guard. -/
def scanFwd (tape : List Byte) : ℕ → ℕ → ℕ → Option ℕ
  | 0, _, _ => none
  | count + 1, i, depth =>
      let depth' := depthFwd (tape.getD i 0) depth
      if depth' = 0 then some i else scanFwd tape count (i + 1) depth'

/-- Backward bracket scan of emulate: for i from pc-1 down to 0, update the
depth from tape[i]; the first i where the depth reaches 0 is the match.
Argument j+1 means the next position to inspect is j, so the initial call
passes pc itself. -/
def scanBwd (tape : List Byte) : ℕ → ℕ → Option ℕ
  | 0, _ => none
  | j + 1, depth =>
      let depth' := depthBwd (tape.getD j 0) depth
      if depth' = 0 then some j else scanBwd tape j depth'

/-- Outcome of one execution of the while-body of emulate, before the shared
iteration++ / pc++ / end-of-tape epilogue: either the updated locals plus
how much the skipped counter grew, or an early break with an error state. -/
inductive StepOut where
  | next (tape : List Byte) (h0 h1 pc skipInc : ℕ)
  | err (s : EmState)
deriving DecidableEq, Repr

/-- The instruction dispatch of emulate (the if/else-if chain on
tape[pc_pos]).  Head moves are the C++ (pos - 1 + tape_size) % tape_size and
(pos + 1) % tape_size; byte arithmetic wraps modulo 256 via Fin 256. -/
def execByteInstr (tape : List Byte) (h0 h1 pc : ℕ) : StepOut :=
  let n := tape.length
  let instr := tape.getD pc 0
  if instr = (60 : Byte) then .next tape ((h0 + n - 1) % n) h1 pc 0
  else if instr = (62 : Byte) then .next tape ((h0 + 1) % n) h1 pc 0
  else if instr = (123 : Byte) then .next tape h0 ((h1 + n - 1) % n) pc 0
  else if instr = (125 : Byte) then .next tape h0 ((h1 + 1) % n) pc 0
  else if instr = (45 : Byte) then .next (tape.set h0 (tape.getD h0 0 - 1)) h0 h1 pc 0
  else if instr = (43 : Byte) then .next (tape.set h0 (tape.getD h0 0 + 1)) h0 h1 pc 0
  else if instr = (46 : Byte) then .next (tape.set h1 (tape.getD h0 0)) h0 h1 pc 0
  else if instr = (44 : Byte) then .next (tape.set h0 (tape.getD h1 0)) h0 h1 pc 0
  else if instr = (91 : Byte) then
    if tape.getD h0 0 = (48 : Byte) then
      match scanFwd tape (n - (pc + 1)) (pc + 1) 1 with
      | some j => .next tape h0 h1 j 0
      | none => .err .ErrorUnmatchedOpen
    else .next tape h0 h1 pc 0
  else if instr = (93 : Byte) then
    if tape.getD h0 0 ≠ (48 : Byte) then
      match scanBwd tape pc 1 with
      | some j => .next tape h0 h1 j 0
      | none => .err .ErrorUnmatchedClose
    else .next tape h0 h1 pc 0
  else .next tape h0 h1 pc 1

/-- The while-loop of emulate, with fuel = max_iter - iteration remaining
loop entries.  On fuel 0 the loop condition fails and the state is the
initial "Terminated"; an unmatched bracket breaks before the iteration++,
leaving tape, heads, pc and counters exactly as they were; otherwise the
epilogue increments iteration and pc and breaks with "Finished" when pc
runs off the tape. -/
def emulateLoop (tape : List Byte) (h0 h1 pc iter skipped : ℕ) : ℕ → EmRun
  | 0 => ⟨tape, h0, h1, pc, .Terminated, iter, skipped⟩
  | fuel + 1 =>
      match execByteInstr tape h0 h1 pc with
      | .err s => ⟨tape, h0, h1, pc, s, iter, skipped⟩
      | .next tape' h0' h1' pc' sk =>
          if tape'.length ≤ pc' + 1 then
            ⟨tape', h0', h1', pc' + 1, .Finished, iter + 1, skipped + sk⟩
          else emulateLoop tape' h0' h1' (pc' + 1) (iter + 1) (skipped + sk) fuel

/-- The internal run of emulate exposing the final head and pc locals. -/
def emulateRun (tape : List Byte) (head0_pos head1_pos pc_pos max_iter : ℕ) : EmRun :=
  emulateLoop tape head0_pos head1_pos pc_pos 0 0 max_iter

/-- emulate (src/src/emulator.cpp): returns EmulatorResult{tape, state,
iteration, skipped}.  The verbose printing is dropped. -/
def emulate (tape : List Byte) (head0_pos head1_pos pc_pos max_iter : ℕ) : EmulatorResult :=
  let r := emulateRun tape head0_pos head1_pos pc_pos max_iter
  ⟨r.tape, r.state, r.iteration, r.skipped⟩

/-! ### Invariants of the plain machine -/

lemma scanFwd_bounds (tape : List Byte) :
    ∀ count i depth j, scanFwd tape count i depth = some j → i ≤ j ∧ j < i + count := by
  intro count
  induction count with
  | zero => intro i depth j h; simp [scanFwd] at h
  | succ count ih =>
      intro i depth j h
      simp only [scanFwd] at h
      split at h
      · rcases h with ⟨⟩; omega
      · rcases ih (i + 1) _ j h with ⟨h1, h2⟩; omega

lemma scanBwd_bounds (tape : List Byte) :
    ∀ j depth k, scanBwd tape j depth = some k → k < j := by
  intro j
  induction j with
  | zero => intro depth k h; simp [scanBwd] at h
  | succ j ih =>
      intro depth k h
      simp only [scanBwd] at h
      split at h
      · rcases h with ⟨⟩; omega
      · exact Nat.lt_succ_of_lt (ih _ k h)

/-- Shape analysis of one instruction dispatch: it either continues with
locals that stay inside the tape, or breaks with one of the two unmatched
bracket errors, leaving everything untouched. -/
lemma execByteInstr_shape (tape : List Byte) (h0 h1 pc : ℕ)
    (hpc : pc < tape.length) (hh0 : h0 < tape.length) (hh1 : h1 < tape.length) :
    (∃ tape' h0' h1' pc' sk, execByteInstr tape h0 h1 pc = .next tape' h0' h1' pc' sk ∧
      tape'.length = tape.length ∧ pc' < tape.length ∧
      h0' < tape.length ∧ h1' < tape.length) ∨
    (∃ s, execByteInstr tape h0 h1 pc = .err s ∧
      (s = .ErrorUnmatchedOpen ∨ s = .ErrorUnmatchedClose)) := by
  have hn : 0 < tape.length := Nat.lt_of_le_of_lt (Nat.zero_le _) hpc
  unfold execByteInstr
  by_cases c60 : tape.getD pc 0 = (60 : Byte)
  · rw [if_pos c60]; exact Or.inl ⟨_, _, _, _, _, rfl, rfl, hpc, Nat.mod_lt _ hn, hh1⟩
  rw [if_neg c60]
  by_cases c62 : tape.getD pc 0 = (62 : Byte)
  · rw [if_pos c62]; exact Or.inl ⟨_, _, _, _, _, rfl, rfl, hpc, Nat.mod_lt _ hn, hh1⟩
  rw [if_neg c62]
  by_cases c123 : tape.getD pc 0 = (123 : Byte)
  · rw [if_pos c123]; exact Or.inl ⟨_, _, _, _, _, rfl, rfl, hpc, hh0, Nat.mod_lt _ hn⟩
  rw [if_neg c123]
  by_cases c125 : tape.getD pc 0 = (125 : Byte)
  · rw [if_pos c125]; exact Or.inl ⟨_, _, _, _, _, rfl, rfl, hpc, hh0, Nat.mod_lt _ hn⟩
  rw [if_neg c125]
  by_cases c45 : tape.getD pc 0 = (45 : Byte)
  · rw [if_pos c45]
    exact Or.inl ⟨_, _, _, _, _, rfl, by simp, by simpa, by simpa, by simpa⟩
  rw [if_neg c45]
  by_cases c43 : tape.getD pc 0 = (43 : Byte)
  · rw [if_pos c43]
    exact Or.inl ⟨_, _, _, _, _, rfl, by simp, by simpa, by simpa, by simpa⟩
  rw [if_neg c43]
  by_cases c46 : tape.getD pc 0 = (46 : Byte)
  · rw [if_pos c46]
    exact Or.inl ⟨_, _, _, _, _, rfl, by simp, by simpa, by simpa, by simpa⟩
  rw [if_neg c46]
  by_cases c44 : tape.getD pc 0 = (44 : Byte)
  · rw [if_pos c44]
    exact Or.inl ⟨_, _, _, _, _, rfl, by simp, by simpa, by simpa, by simpa⟩
  rw [if_neg c44]
  by_cases c91 : tape.getD pc 0 = (91 : Byte)
  · rw [if_pos c91]
    by_cases hz : tape.getD h0 0 = (48 : Byte)
    · rw [if_pos hz]
      rcases hsc : scanFwd tape (tape.length - (pc + 1)) (pc + 1) 1 with _ | j
      · exact Or.inr ⟨_, rfl, Or.inl rfl⟩
      · have := scanFwd_bounds tape _ _ _ _ hsc
        exact Or.inl ⟨_, _, _, _, _, rfl, rfl, by omega, hh0, hh1⟩
    · rw [if_neg hz]; exact Or.inl ⟨_, _, _, _, _, rfl, rfl, hpc, hh0, hh1⟩
  rw [if_neg c91]
  by_cases c93 : tape.getD pc 0 = (93 : Byte)
  · rw [if_pos c93]
    by_cases hz : tape.getD h0 0 ≠ (48 : Byte)
    · rw [if_pos hz]
      rcases hsc : scanBwd tape pc 1 with _ | j
      · exact Or.inr ⟨_, rfl, Or.inr rfl⟩
      · have := scanBwd_bounds tape _ _ _ hsc
        exact Or.inl ⟨_, _, _, _, _, rfl, rfl, by omega, hh0, hh1⟩
    · rw [if_neg hz]; exact Or.inl ⟨_, _, _, _, _, rfl, rfl, hpc, hh0, hh1⟩
  rw [if_neg c93]
  exact Or.inl ⟨_, _, _, _, _, rfl, rfl, hpc, hh0, hh1⟩

lemma emulateLoop_inv (fuel : ℕ) :
    ∀ (tape : List Byte) (h0 h1 pc iter skipped : ℕ),
    pc < tape.length → h0 < tape.length → h1 < tape.length →
    (emulateLoop tape h0 h1 pc iter skipped fuel).tape.length = tape.length ∧
    ((emulateLoop tape h0 h1 pc iter skipped fuel).state = .Finished ↔
      tape.length ≤ (emulateLoop tape h0 h1 pc iter skipped fuel).pc) ∧
    ((emulateLoop tape h0 h1 pc iter skipped fuel).state = .Terminated →
      (emulateLoop tape h0 h1 pc iter skipped fuel).iteration = iter + fuel) := by
  induction fuel with
  | zero =>
      intro tape h0 h1 pc iter skipped hpc hh0 hh1
      refine ⟨rfl, ?_, fun _ => rfl⟩
      simp only [emulateLoop]
      constructor
      · intro h; cases h
      · intro h; omega
  | succ fuel ih =>
      intro tape h0 h1 pc iter skipped hpc hh0 hh1
      rcases execByteInstr_shape tape h0 h1 pc hpc hh0 hh1 with
        ⟨tape', h0', h1', pc', sk, hstep, hlen, hpc', hh0', hh1'⟩ | ⟨s, hstep, hs⟩
      · simp only [emulateLoop, hstep]
        by_cases hfin : tape'.length ≤ pc' + 1
        · rw [if_pos hfin]
          refine ⟨hlen, ?_, fun h => by cases h⟩
          constructor
          · intro _; show tape.length ≤ pc' + 1; omega
          · intro _; rfl
        · rw [if_neg hfin]
          have h2 := ih tape' h0' h1' (pc' + 1) (iter + 1) (skipped + sk)
            (by omega) (by omega) (by omega)
          refine ⟨by rw [h2.1, hlen], ?_, ?_⟩
          · rw [← hlen]; exact h2.2.1
          · intro h; have := h2.2.2 h; omega
      · simp only [emulateLoop, hstep]
        rcases hs with h | h <;> subst h <;>
          refine ⟨by trivial, ?_, fun h => by cases h⟩ <;>
          constructor <;> intro h
        · cases h
        · exact absurd (show tape.length ≤ pc from h) (by omega)
        · cases h
        · exact absurd (show tape.length ≤ pc from h) (by omega)

lemma emulateLoop_iteration_le (fuel : ℕ) :
    ∀ (tape : List Byte) (h0 h1 pc iter skipped : ℕ),
    (emulateLoop tape h0 h1 pc iter skipped fuel).iteration ≤ iter + fuel := by
  induction fuel with
  | zero => intro tape h0 h1 pc iter skipped; simp [emulateLoop]
  | succ fuel ih =>
      intro tape h0 h1 pc iter skipped
      simp only [emulateLoop]
      cases execByteInstr tape h0 h1 pc with
      | err s => show iter ≤ iter + (fuel + 1); omega
      | next tape' h0' h1' pc' sk =>
          dsimp only
          by_cases hfin : tape'.length ≤ pc' + 1
          · rw [if_pos hfin]; show iter + 1 ≤ iter + (fuel + 1); omega
          · rw [if_neg hfin]
            have := ih tape' h0' h1' (pc' + 1) (iter + 1) (skipped + sk)
            omega

/-- C2 counterexample: on the tape "---0" (bytes 45 45 45 48) with
head0 = head1 = pc = 0, emulate does not return the tape [45, 45, 45, 45]
claimed by the spec and by test_simple_decrement.cpp: the three decrements
all act at head0 = 0. -/
theorem simple_decrement_counterexample :
    (emulate [45, 45, 45, 48] 0 0 0 100).tape ≠ [45, 45, 45, 45] := by
  decide

/-- C2 amended: on the tape "---0" with head0 = head1 = pc = 0 the machine
returns the tape [42, 45, 45, 48] (byte 0 decremented three times, the rest
untouched), state Finished, 4 iterations, 1 skipped byte. -/
theorem simple_decrement_amended :
    emulate [45, 45, 45, 48] 0 0 0 100 =
      ⟨[42, 45, 45, 48], .Finished, 4, 1⟩ := by
  decide

/-- C3 counterexample: the tape "0.[" run with head0 = 0, head1 = 1, pc = 1
halts with ErrorUnmatchedOpen, but the returned tape differs from the input
tape: the '.' executed before the unmatched '[' already overwrote byte 1. -/
theorem error_tape_unchanged_counterexample :
    (emulate [48, 46, 91] 0 1 1 100).state = .ErrorUnmatchedOpen ∧
      (emulate [48, 46, 91] 0 1 1 100).tape ≠ [48, 46, 91] := by
  decide

/-- C3 amended: when the machine halts with an unmatched-bracket error, the
failing instruction itself changes nothing: the returned tape, heads, pc and
counters are exactly their values at the moment the failing bracket was
reached (not the values at the start of the whole execution). -/
theorem error_halt_frame (tape : List Byte) (h0 h1 pc iter skipped fuel : ℕ)
    (s : EmState) (h : execByteInstr tape h0 h1 pc = .err s) :
    emulateLoop tape h0 h1 pc iter skipped (fuel + 1) =
      ⟨tape, h0, h1, pc, s, iter, skipped⟩ := by
  simp [emulateLoop, h]

/-- Witness for C3 amended, at the state reached by the counterexample tape
just before its failing '[' instruction. -/
theorem error_halt_frame_witness :
    execByteInstr [48, 46, 91] 0 1 2 = .err .ErrorUnmatchedOpen ∧
      emulateLoop [48, 46, 91] 0 1 2 1 0 (98 + 1) =
        ⟨[48, 46, 91], 0, 1, 2, .ErrorUnmatchedOpen, 1, 0⟩ :=
  ⟨by decide, error_halt_frame [48, 46, 91] 0 1 2 1 0 98 .ErrorUnmatchedOpen (by decide)⟩

/-- C5 counterexample: on the tape "0" with max_iter = 1 the machine returns
iterations = 1 = max_iter, yet the state is Finished, not Terminated: the
iteration ceiling and the end of the tape are reached simultaneously and
Finished wins. -/
theorem halt_state_counterexample :
    (emulate [48] 0 0 0 1).iteration = 1 ∧ (emulate [48] 0 0 0 1).state ≠ .Terminated := by
  decide

/-- C5 amended: for an in-range starting state, the returned state is
Finished if and only if pc ran past the end of the tape, and if the state is
Terminated then the iteration count equals max_iter; the converse of the
Terminated direction is false (see the counterexample: iterations can equal
max_iter with state Finished). -/
theorem halt_state_characterization (tape : List Byte) (h0 h1 pc maxIter : ℕ)
    (hpc : pc < tape.length) (hh0 : h0 < tape.length) (hh1 : h1 < tape.length) :
    ((emulateRun tape h0 h1 pc maxIter).state = .Finished ↔
      tape.length ≤ (emulateRun tape h0 h1 pc maxIter).pc) ∧
    ((emulateRun tape h0 h1 pc maxIter).state = .Terminated →
      (emulateRun tape h0 h1 pc maxIter).iteration = maxIter) := by
  have h := emulateLoop_inv maxIter tape h0 h1 pc 0 0 hpc hh0 hh1
  simp only [emulateRun]
  exact ⟨h.2.1, fun hs => by have := h.2.2 hs; omega⟩

/-- Witness for C5 amended on a concrete in-range run. -/
theorem halt_state_characterization_witness :
    ((emulateRun [45] 0 0 0 2).state = .Finished ↔
      (1 : ℕ) ≤ (emulateRun [45] 0 0 0 2).pc) ∧
    ((emulateRun [45] 0 0 0 2).state = .Terminated →
      (emulateRun [45] 0 0 0 2).iteration = 2) :=
  halt_state_characterization [45] 0 0 0 2 (by decide) (by decide) (by decide)

/-! ### Tokenized byte-machine (src/src/emulator_w_tracer.cpp)

The tracer variant indexes a std::vector<Token>.  Every tape access of the
C++ code is modelled through a checked lookup: the whole run returns none
exactly when some access would have been out of bounds (which theorem
tracer_start_clamping below shows never happens once the entry clamping has
run on a non-empty tape). -/

/-- The result struct EmulatorResultWithTracer of src/include/emulator_w_tracer.h.
The final state is never "Running": the function rewrites it to "Terminated"
before returning. -/
structure EmulatorResultWithTracer where
  tape : List Token
  head0 : ℕ
  head1 : ℕ
  pc : ℕ
  iteration : ℕ
  skipped : ℕ
  state : EmState
deriving DecidableEq, Repr

/-- The valid instruction set, the C++ string "<>{}-+.,[]". -/
def bffInstructions : List Byte :=
  [60, 62, 123, 125, 45, 43, 46, 44, 91, 93]

/-- Forward bracket scan of emulate_w_tracer, on the char fields.  As in the
C++ loop, every read tape[i] is guarded by i < tape_size (count keeps the
number of remaining positions). -/
def scanFwdTok (tape : List Token) : ℕ → ℕ → ℕ → Option ℕ
  | 0, _, _ => none
  | count + 1, i, depth =>
      let depth' := depthFwd (tape.getD i ⟨0⟩).get_char depth
      if depth' = 0 then some i else scanFwdTok tape count (i + 1) depth'

/-- Backward bracket scan of emulate_w_tracer, on the char fields, with a
checked read: the outer none records an out-of-bounds access, some none
records a scan that fell off position 0 without a match. -/
def scanBwdTok (tape : List Token) : ℕ → ℕ → Option (Option ℕ)
  | 0, _ => some none
  | j + 1, depth =>
      match tape[j]? with
      | none => none
      | some tok =>
          let depth' := depthBwd tok.get_char depth
          if depth' = 0 then some (some j) else scanBwdTok tape j depth'

/-- Outcome of one iteration of the while-body of emulate_w_tracer, before
the shared pc++ / end-of-tape epilogue. -/
inductive TokStep where
  | next (tape : List Token) (h0 h1 pc skipInc : ℕ)
  | err (s : EmState)
deriving DecidableEq, Repr

/-- One iteration of the tracer loop body: read the instruction token at pc,
skip non-instruction bytes (counted in skipped), otherwise run the switch.
none means a tape access was out of bounds. -/
def execTokInstr (tape : List Token) (h0 h1 pc : ℕ) : Option TokStep :=
  let n := tape.length
  match tape[pc]? with
  | none => none
  | some ptok =>
    let instr := ptok.get_char
    if (bffInstructions.contains instr) = false then some (.next tape h0 h1 pc 1)
    else if instr = (60 : Byte) then some (.next tape ((h0 + n - 1) % n) h1 pc 0)
    else if instr = (62 : Byte) then some (.next tape ((h0 + 1) % n) h1 pc 0)
    else if instr = (123 : Byte) then some (.next tape h0 ((h1 + n - 1) % n) pc 0)
    else if instr = (125 : Byte) then some (.next tape h0 ((h1 + 1) % n) pc 0)
    else if instr = (43 : Byte) then
      match tape[h0]? with
      | none => none
      | some t0 => some (.next (tape.set h0 (t0.set_char (t0.get_char + 1))) h0 h1 pc 0)
    else if instr = (45 : Byte) then
      match tape[h0]? with
      | none => none
      | some t0 => some (.next (tape.set h0 (t0.set_char (t0.get_char - 1))) h0 h1 pc 0)
    else if instr = (46 : Byte) then
      match tape[h0]? with
      | none => none
      | some src => if h1 < n then some (.next (tape.set h1 src) h0 h1 pc 0) else none
    else if instr = (44 : Byte) then
      match tape[h1]? with
      | none => none
      | some src => if h0 < n then some (.next (tape.set h0 src) h0 h1 pc 0) else none
    else if instr = (91 : Byte) then
      match tape[h0]? with
      | none => none
      | some t0 =>
          if t0.get_char = (48 : Byte) then
            match scanFwdTok tape (n - (pc + 1)) (pc + 1) 1 with
            | some j => some (.next tape h0 h1 j 0)
            | none => some (.err .ErrorUnmatchedOpen)
          else some (.next tape h0 h1 pc 0)
    else if instr = (93 : Byte) then
      match tape[h0]? with
      | none => none
      | some t0 =>
          if t0.get_char ≠ (48 : Byte) then
            match scanBwdTok tape pc 1 with
            | none => none
            | some none => some (.err .ErrorUnmatchedClose)
            | some (some j) => some (.next tape h0 h1 j 0)
          else some (.next tape h0 h1 pc 0)
    else some (.next tape h0 h1 pc 0)

/-- The while-loop of emulate_w_tracer with fuel = max_iter - iteration.
iteration++ runs at the top of the body, so error returns count the failing
instruction; on fuel 0 the loop condition fails with state still "Running"
and the epilogue turns it into "Terminated". -/
def tracerLoop (tape : List Token) (h0 h1 pc iter skipped : ℕ) :
    ℕ → Option EmulatorResultWithTracer
  | 0 => some ⟨tape, h0, h1, pc, iter, skipped, .Terminated⟩
  | fuel + 1 =>
      match execTokInstr tape h0 h1 pc with
      | none => none
      | some (.err s) => some ⟨tape, h0, h1, pc, iter + 1, skipped, s⟩
      | some (.next tape' h0' h1' pc' sk) =>
          if tape'.length ≤ pc' + 1 then
            some ⟨tape', h0', h1', pc' + 1, iter + 1, skipped + sk, .Finished⟩
          else tracerLoop tape' h0' h1' (pc' + 1) (iter + 1) (skipped + sk) fuel

/-- The entry clamping of emulate_w_tracer:
pos = std::max(0, std::min(pos, tape_size - 1)) on C++ ints. -/
def clampPos (pos : ℤ) (tape_size : ℕ) : ℤ :=
  max 0 (min pos ((tape_size : ℤ) - 1))

/-- emulate_w_tracer (src/src/emulator_w_tracer.cpp): clamp the three
caller-supplied positions into the tape, then run the loop.  The verbose
printing is dropped. -/
def emulate_w_tracer (tape : List Token) (head0_pos head1_pos pc_pos : ℤ)
    (max_iter : ℕ) : Option EmulatorResultWithTracer :=
  tracerLoop tape (clampPos head0_pos tape.length).toNat
    (clampPos head1_pos tape.length).toNat (clampPos pc_pos tape.length).toNat
    0 0 max_iter

/-! ### Token field lemmas and byte projection -/

lemma Token.get_char_set_char (t : Token) (c : Byte) :
    (t.set_char c).get_char = c := by
  apply Fin.ext
  have := c.isLt
  simp only [Token.set_char, Token.get_char]
  omega

lemma Token.get_epoch_set_char (t : Token) (c : Byte) :
    (t.set_char c).get_epoch = t.get_epoch := by
  have := c.isLt
  simp only [Token.set_char, Token.get_epoch]
  omega

lemma Token.get_position_set_char (t : Token) (c : Byte) :
    (t.set_char c).get_position = t.get_position := by
  have := c.isLt
  simp only [Token.set_char, Token.get_position]
  omega

lemma tokens_to_bytes_length (tt : List Token) :
    (tokens_to_bytes tt).length = tt.length := by
  simp [tokens_to_bytes]

lemma proj_getD_char (tt : List Token) (i : ℕ) :
    (tt.getD i ⟨0⟩).get_char = (tokens_to_bytes tt).getD i 0 := by
  simp only [tokens_to_bytes, List.getD_eq_getElem?_getD, List.getElem?_map]
  cases tt[i]? with
  | none => simp; decide
  | some t => simp

lemma proj_getElem? (tt : List Token) (i : ℕ) (hi : i < tt.length) :
    tt[i]? = some (tt.getD i ⟨0⟩) := by
  rw [List.getElem?_eq_getElem hi, List.getD_eq_getElem?_getD,
    List.getElem?_eq_getElem hi]
  rfl

lemma proj_set (tt : List Token) (i : ℕ) (x : Token) :
    tokens_to_bytes (tt.set i x) = (tokens_to_bytes tt).set i x.get_char := by
  simp [tokens_to_bytes, List.map_set]

lemma scanFwdTok_corr (tt : List Token) :
    ∀ count i depth, scanFwdTok tt count i depth = scanFwd (tokens_to_bytes tt) count i depth := by
  intro count
  induction count with
  | zero => intro i depth; rfl
  | succ count ih =>
      intro i depth
      simp only [scanFwdTok, scanFwd, proj_getD_char]
      split
      · rfl
      · exact ih (i + 1) _

lemma scanBwdTok_corr (tt : List Token) :
    ∀ j depth, j ≤ tt.length →
      scanBwdTok tt j depth = some (scanBwd (tokens_to_bytes tt) j depth) := by
  intro j
  induction j with
  | zero => intro depth _; rfl
  | succ j ih =>
      intro depth hj
      have hjlt : j < tt.length := hj
      simp only [scanBwdTok, scanBwd, proj_getElem? tt j hjlt, ← proj_getD_char]
      split
      · rfl
      · exact ih _ (Nat.le_of_lt hjlt)

/-- One-step correspondence between the tokenized and the plain dispatch:
on byte-identical tapes (and in-range locals) the token step succeeds, takes
the same branch, computes the same locals, and its tape still projects to
the byte machine's tape. -/
lemma execTokInstr_corr (tt : List Token) (bt : List Byte) (h0 h1 pc : ℕ)
    (hproj : tokens_to_bytes tt = bt)
    (hpc : pc < bt.length) (hh0 : h0 < bt.length) (hh1 : h1 < bt.length) :
    (∀ s, execByteInstr bt h0 h1 pc = .err s →
      execTokInstr tt h0 h1 pc = some (.err s)) ∧
    (∀ bt' h0' h1' pc' sk, execByteInstr bt h0 h1 pc = .next bt' h0' h1' pc' sk →
      ∃ tt', execTokInstr tt h0 h1 pc = some (.next tt' h0' h1' pc' sk) ∧
        tokens_to_bytes tt' = bt') := by
  have hlen : tt.length = bt.length := by rw [← hproj, tokens_to_bytes_length]
  have hpcT : pc < tt.length := by omega
  have hh0T : h0 < tt.length := by omega
  have hh1T : h1 < tt.length := by omega
  have hptok := proj_getElem? tt pc hpcT
  have hchar : (tt.getD pc ⟨0⟩).get_char = bt.getD pc 0 := by rw [proj_getD_char, hproj]
  have h0tok := proj_getElem? tt h0 hh0T
  have h0char : (tt.getD h0 ⟨0⟩).get_char = bt.getD h0 0 := by rw [proj_getD_char, hproj]
  have h1tok := proj_getElem? tt h1 hh1T
  have h1char : (tt.getD h1 ⟨0⟩).get_char = bt.getD h1 0 := by rw [proj_getD_char, hproj]
  by_cases hc60 : bt.getD pc 0 = (60 : Byte)
  · have hByte : execByteInstr bt h0 h1 pc =
        .next bt ((h0 + bt.length - 1) % bt.length) h1 pc 0 := by
      simp only [execByteInstr]; rw [hc60]; simp
    have hTok : execTokInstr tt h0 h1 pc =
        some (.next tt ((h0 + tt.length - 1) % tt.length) h1 pc 0) := by
      simp only [execTokInstr, hptok]; rw [hchar, hc60]; simp [bffInstructions]
    refine ⟨fun s hs => ?_, fun bt' h0' h1' pc' sk hs => ?_⟩
    · rw [hByte] at hs; cases hs
    · rw [hByte] at hs; cases hs; refine ⟨tt, ?_, hproj⟩; rw [← hlen]; exact hTok
  by_cases hc62 : bt.getD pc 0 = (62 : Byte)
  · have hByte : execByteInstr bt h0 h1 pc = .next bt ((h0 + 1) % bt.length) h1 pc 0 := by
      simp only [execByteInstr]; rw [hc62]; simp
    have hTok : execTokInstr tt h0 h1 pc =
        some (.next tt ((h0 + 1) % tt.length) h1 pc 0) := by
      simp only [execTokInstr, hptok]; rw [hchar, hc62]; simp [bffInstructions]
    refine ⟨fun s hs => ?_, fun bt' h0' h1' pc' sk hs => ?_⟩
    · rw [hByte] at hs; cases hs
    · rw [hByte] at hs; cases hs; refine ⟨tt, ?_, hproj⟩; rw [← hlen]; exact hTok
  by_cases hc123 : bt.getD pc 0 = (123 : Byte)
  · have hByte : execByteInstr bt h0 h1 pc =
        .next bt h0 ((h1 + bt.length - 1) % bt.length) pc 0 := by
      simp only [execByteInstr]; rw [hc123]; simp
    have hTok : execTokInstr tt h0 h1 pc =
        some (.next tt h0 ((h1 + tt.length - 1) % tt.length) pc 0) := by
      simp only [execTokInstr, hptok]; rw [hchar, hc123]; simp [bffInstructions]
    refine ⟨fun s hs => ?_, fun bt' h0' h1' pc' sk hs => ?_⟩
    · rw [hByte] at hs; cases hs
    · rw [hByte] at hs; cases hs; refine ⟨tt, ?_, hproj⟩; rw [← hlen]; exact hTok
  by_cases hc125 : bt.getD pc 0 = (125 : Byte)
  · have hByte : execByteInstr bt h0 h1 pc = .next bt h0 ((h1 + 1) % bt.length) pc 0 := by
      simp only [execByteInstr]; rw [hc125]; simp
    have hTok : execTokInstr tt h0 h1 pc =
        some (.next tt h0 ((h1 + 1) % tt.length) pc 0) := by
      simp only [execTokInstr, hptok]; rw [hchar, hc125]; simp [bffInstructions]
    refine ⟨fun s hs => ?_, fun bt' h0' h1' pc' sk hs => ?_⟩
    · rw [hByte] at hs; cases hs
    · rw [hByte] at hs; cases hs; refine ⟨tt, ?_, hproj⟩; rw [← hlen]; exact hTok
  by_cases hc45 : bt.getD pc 0 = (45 : Byte)
  · have hByte : execByteInstr bt h0 h1 pc =
        .next (bt.set h0 (bt.getD h0 0 - 1)) h0 h1 pc 0 := by
      simp only [execByteInstr]; rw [hc45]; simp
    have hTok : execTokInstr tt h0 h1 pc =
        some (.next (tt.set h0 ((tt.getD h0 ⟨0⟩).set_char ((tt.getD h0 ⟨0⟩).get_char - 1)))
          h0 h1 pc 0) := by
      simp only [execTokInstr, hptok, h0tok]; rw [hchar, hc45]; simp [bffInstructions]
    refine ⟨fun s hs => ?_, fun bt' h0' h1' pc' sk hs => ?_⟩
    · rw [hByte] at hs; cases hs
    · rw [hByte] at hs; cases hs
      refine ⟨_, hTok, ?_⟩
      rw [proj_set, Token.get_char_set_char, h0char, hproj]
  by_cases hc43 : bt.getD pc 0 = (43 : Byte)
  · have hByte : execByteInstr bt h0 h1 pc =
        .next (bt.set h0 (bt.getD h0 0 + 1)) h0 h1 pc 0 := by
      simp only [execByteInstr]; rw [hc43]; simp
    have hTok : execTokInstr tt h0 h1 pc =
        some (.next (tt.set h0 ((tt.getD h0 ⟨0⟩).set_char ((tt.getD h0 ⟨0⟩).get_char + 1)))
          h0 h1 pc 0) := by
      simp only [execTokInstr, hptok, h0tok]; rw [hchar, hc43]; simp [bffInstructions]
    refine ⟨fun s hs => ?_, fun bt' h0' h1' pc' sk hs => ?_⟩
    · rw [hByte] at hs; cases hs
    · rw [hByte] at hs; cases hs
      refine ⟨_, hTok, ?_⟩
      rw [proj_set, Token.get_char_set_char, h0char, hproj]
  by_cases hc46 : bt.getD pc 0 = (46 : Byte)
  · have hByte : execByteInstr bt h0 h1 pc =
        .next (bt.set h1 (bt.getD h0 0)) h0 h1 pc 0 := by
      simp only [execByteInstr]; rw [hc46]; simp
    have hTok : execTokInstr tt h0 h1 pc =
        some (.next (tt.set h1 (tt.getD h0 ⟨0⟩)) h0 h1 pc 0) := by
      simp only [execTokInstr, hptok, h0tok]; rw [hchar, hc46]
      rw [if_pos hh1T]; simp [bffInstructions]
    refine ⟨fun s hs => ?_, fun bt' h0' h1' pc' sk hs => ?_⟩
    · rw [hByte] at hs; cases hs
    · rw [hByte] at hs; cases hs
      refine ⟨_, hTok, ?_⟩
      rw [proj_set, h0char, hproj]
  by_cases hc44 : bt.getD pc 0 = (44 : Byte)
  · have hByte : execByteInstr bt h0 h1 pc =
        .next (bt.set h0 (bt.getD h1 0)) h0 h1 pc 0 := by
      simp only [execByteInstr]; rw [hc44]; simp
    have hTok : execTokInstr tt h0 h1 pc =
        some (.next (tt.set h0 (tt.getD h1 ⟨0⟩)) h0 h1 pc 0) := by
      simp only [execTokInstr, hptok, h1tok]; rw [hchar, hc44]
      rw [if_pos hh0T]; simp [bffInstructions]
    refine ⟨fun s hs => ?_, fun bt' h0' h1' pc' sk hs => ?_⟩
    · rw [hByte] at hs; cases hs
    · rw [hByte] at hs; cases hs
      refine ⟨_, hTok, ?_⟩
      rw [proj_set, h1char, hproj]
  by_cases hc91 : bt.getD pc 0 = (91 : Byte)
  · by_cases hz : bt.getD h0 0 = (48 : Byte)
    · rcases hscan : scanFwd bt (bt.length - (pc + 1)) (pc + 1) 1 with _ | j
      · have hByte : execByteInstr bt h0 h1 pc = .err .ErrorUnmatchedOpen := by
          simp only [execByteInstr]; rw [hc91, hz, hscan]; simp
        have hTok : execTokInstr tt h0 h1 pc = some (.err .ErrorUnmatchedOpen) := by
          simp only [execTokInstr, hptok, h0tok]
          rw [hchar, hc91, h0char, hz, scanFwdTok_corr, hproj, hlen, hscan]; simp [bffInstructions]
        refine ⟨fun s hs => ?_, fun bt' h0' h1' pc' sk hs => ?_⟩
        · rw [hByte] at hs; cases hs; exact hTok
        · rw [hByte] at hs; cases hs
      · have hByte : execByteInstr bt h0 h1 pc = .next bt h0 h1 j 0 := by
          simp only [execByteInstr]; rw [hc91, hz, hscan]; simp
        have hTok : execTokInstr tt h0 h1 pc = some (.next tt h0 h1 j 0) := by
          simp only [execTokInstr, hptok, h0tok]
          rw [hchar, hc91, h0char, hz, scanFwdTok_corr, hproj, hlen, hscan]; simp [bffInstructions]
        refine ⟨fun s hs => ?_, fun bt' h0' h1' pc' sk hs => ?_⟩
        · rw [hByte] at hs; cases hs
        · rw [hByte] at hs; cases hs; exact ⟨tt, hTok, hproj⟩
    · have hByte : execByteInstr bt h0 h1 pc = .next bt h0 h1 pc 0 := by
        simp only [execByteInstr]; rw [hc91, if_neg hz]; simp
      have hTok : execTokInstr tt h0 h1 pc = some (.next tt h0 h1 pc 0) := by
        simp only [execTokInstr, hptok, h0tok]; rw [hchar, hc91, h0char, if_neg hz]; simp [bffInstructions]
      refine ⟨fun s hs => ?_, fun bt' h0' h1' pc' sk hs => ?_⟩
      · rw [hByte] at hs; cases hs
      · rw [hByte] at hs; cases hs; exact ⟨tt, hTok, hproj⟩
  by_cases hc93 : bt.getD pc 0 = (93 : Byte)
  · have hbwd := scanBwdTok_corr tt pc 1 (Nat.le_of_lt hpcT)
    rw [hproj] at hbwd
    by_cases hz : bt.getD h0 0 = (48 : Byte)
    · have hByte : execByteInstr bt h0 h1 pc = .next bt h0 h1 pc 0 := by
        simp only [execByteInstr]; rw [hc93, if_neg (not_not_intro hz)]; simp
      have hTok : execTokInstr tt h0 h1 pc = some (.next tt h0 h1 pc 0) := by
        simp only [execTokInstr, hptok, h0tok]
        rw [hchar, hc93, h0char, if_neg (not_not_intro hz)]; simp [bffInstructions]
      refine ⟨fun s hs => ?_, fun bt' h0' h1' pc' sk hs => ?_⟩
      · rw [hByte] at hs; cases hs
      · rw [hByte] at hs; cases hs; exact ⟨tt, hTok, hproj⟩
    · rcases hscan : scanBwd bt pc 1 with _ | j
      · rw [hscan] at hbwd
        have hByte : execByteInstr bt h0 h1 pc = .err .ErrorUnmatchedClose := by
          simp only [execByteInstr]; rw [hc93, if_pos hz, hscan]; simp
        have hTok : execTokInstr tt h0 h1 pc = some (.err .ErrorUnmatchedClose) := by
          simp only [execTokInstr, hptok, h0tok]
          rw [hchar, hc93, h0char, if_pos hz, hbwd]; simp [bffInstructions]
        refine ⟨fun s hs => ?_, fun bt' h0' h1' pc' sk hs => ?_⟩
        · rw [hByte] at hs; cases hs; exact hTok
        · rw [hByte] at hs; cases hs
      · rw [hscan] at hbwd
        have hByte : execByteInstr bt h0 h1 pc = .next bt h0 h1 j 0 := by
          simp only [execByteInstr]; rw [hc93, if_pos hz, hscan]; simp
        have hTok : execTokInstr tt h0 h1 pc = some (.next tt h0 h1 j 0) := by
          simp only [execTokInstr, hptok, h0tok]
          rw [hchar, hc93, h0char, if_pos hz, hbwd]; simp [bffInstructions]
        refine ⟨fun s hs => ?_, fun bt' h0' h1' pc' sk hs => ?_⟩
        · rw [hByte] at hs; cases hs
        · rw [hByte] at hs; cases hs; exact ⟨tt, hTok, hproj⟩
  · have hByte : execByteInstr bt h0 h1 pc = .next bt h0 h1 pc 1 := by
      simp only [execByteInstr]
      rw [if_neg hc60, if_neg hc62, if_neg hc123, if_neg hc125, if_neg hc45,
        if_neg hc43, if_neg hc46, if_neg hc44, if_neg hc91, if_neg hc93]
    have hcont : bffInstructions.contains ((tt.getD pc ⟨0⟩).get_char) = false := by
      rw [hchar]
      have hnm : bt.getD pc 0 ∉ bffInstructions := by
        intro hm
        simp only [bffInstructions, List.mem_cons, List.mem_singleton] at hm
        rcases hm with h|h|h|h|h|h|h|h|h|h <;> simp_all
      simpa using hnm
    have hTok : execTokInstr tt h0 h1 pc = some (.next tt h0 h1 pc 1) := by
      simp only [execTokInstr, hptok]; rw [hcont]; simp [bffInstructions]
    refine ⟨fun s hs => ?_, fun bt' h0' h1' pc' sk hs => ?_⟩
    · rw [hByte] at hs; cases hs
    · rw [hByte] at hs; cases hs; exact ⟨tt, hTok, hproj⟩


/-- Whole-run correspondence: from byte-identical tapes and in-range locals,
the tracer loop never faults and its final tape projects to the byte
machine's final tape. -/
lemma tracerLoop_corr (fuel : ℕ) :
    ∀ (tt : List Token) (bt : List Byte) (h0 h1 pc iter skipped : ℕ),
    tokens_to_bytes tt = bt → pc < bt.length → h0 < bt.length → h1 < bt.length →
    ∃ r, tracerLoop tt h0 h1 pc iter skipped fuel = some r ∧
      tokens_to_bytes r.tape = (emulateLoop bt h0 h1 pc iter skipped fuel).tape := by
  induction fuel with
  | zero =>
      intro tt bt h0 h1 pc iter skipped hproj hpc hh0 hh1
      exact ⟨⟨tt, h0, h1, pc, iter, skipped, .Terminated⟩, rfl, hproj⟩
  | succ fuel ih =>
      intro tt bt h0 h1 pc iter skipped hproj hpc hh0 hh1
      rcases execByteInstr_shape bt h0 h1 pc hpc hh0 hh1 with
        ⟨bt', h0', h1', pc', sk, hstep, hblen, hpc', hh0', hh1'⟩ | ⟨s, hstep, hs⟩
      · rcases (execTokInstr_corr tt bt h0 h1 pc hproj hpc hh0 hh1).2 bt' h0' h1' pc' sk hstep
          with ⟨tt', htok, hproj'⟩
        have hlen' : tt'.length = bt'.length := by rw [← hproj', tokens_to_bytes_length]
        simp only [tracerLoop, emulateLoop, hstep, htok]
        by_cases hfin : bt'.length ≤ pc' + 1
        · rw [if_pos (show tt'.length ≤ pc' + 1 by omega), if_pos hfin]
          exact ⟨_, rfl, hproj'⟩
        · rw [if_neg (show ¬tt'.length ≤ pc' + 1 by omega), if_neg hfin]
          exact ih tt' bt' h0' h1' (pc' + 1) (iter + 1) (skipped + sk) hproj'
            (by omega) (by omega) (by omega)
      · have htok := (execTokInstr_corr tt bt h0 h1 pc hproj hpc hh0 hh1).1 s hstep
        simp only [tracerLoop, emulateLoop, hstep, htok]
        exact ⟨_, rfl, hproj⟩

lemma clampPos_nonneg_lt (z : ℤ) (n : ℕ) (hn : 0 < n) :
    0 ≤ clampPos z n ∧ clampPos z n < n := by
  simp only [clampPos]
  omega

lemma clampPos_of_lt (p n : ℕ) (h : p < n) : (clampPos (p : ℤ) n).toNat = p := by
  simp only [clampPos]
  omega

/-- C1: for byte-identical inputs and an in-range start, the tokenized
byte-machine runs without faulting and the byte projection of its final
token tape is exactly the final tape of the plain byte-machine. -/
theorem tokenized_byte_equivalence (tt : List Token) (bt : List Byte)
    (head0 head1 pc maxIter : ℕ) (hproj : tokens_to_bytes tt = bt)
    (hh0 : head0 < bt.length) (hh1 : head1 < bt.length) (hpc : pc < bt.length) :
    ∃ r, emulate_w_tracer tt (head0 : ℤ) (head1 : ℤ) (pc : ℤ) maxIter = some r ∧
      tokens_to_bytes r.tape = (emulate bt head0 head1 pc maxIter).tape := by
  have hlen : tt.length = bt.length := by rw [← hproj, tokens_to_bytes_length]
  obtain ⟨r, hr, hp⟩ := tracerLoop_corr maxIter tt bt head0 head1 pc 0 0 hproj hpc hh0 hh1
  refine ⟨r, ?_, hp⟩
  rw [emulate_w_tracer, clampPos_of_lt head0 tt.length (by omega),
    clampPos_of_lt head1 tt.length (by omega), clampPos_of_lt pc tt.length (by omega)]
  exact hr

/-- Witness for C1 on the concrete tape "> + 0". -/
theorem tokenized_byte_equivalence_witness :
    ∃ r, emulate_w_tracer (initialize_tokens [62, 43, 48])
        ((0 : ℕ) : ℤ) ((0 : ℕ) : ℤ) ((0 : ℕ) : ℤ) 10 = some r ∧
      tokens_to_bytes r.tape = (emulate [62, 43, 48] 0 0 0 10).tape :=
  tokenized_byte_equivalence (initialize_tokens [62, 43, 48]) [62, 43, 48] 0 0 0 10
    (by decide) (by decide) (by decide) (by decide)

lemma tracerLoop_iteration_le (fuel : ℕ) :
    ∀ (tt : List Token) (h0 h1 pc iter skipped : ℕ) (r : EmulatorResultWithTracer),
    tracerLoop tt h0 h1 pc iter skipped fuel = some r → r.iteration ≤ iter + fuel := by
  induction fuel with
  | zero =>
      intro tt h0 h1 pc iter skipped r h
      cases h
      simp
  | succ fuel ih =>
      intro tt h0 h1 pc iter skipped r h
      simp only [tracerLoop] at h
      cases hstep : execTokInstr tt h0 h1 pc with
      | none => rw [hstep] at h; cases h
      | some step =>
          rw [hstep] at h
          cases step with
          | err s => cases h; show iter + 1 ≤ iter + (fuel + 1); omega
          | next tape' h0' h1' pc' sk =>
              dsimp only at h
              by_cases hfin : tape'.length ≤ pc' + 1
              · rw [if_pos hfin] at h
                cases h
                show iter + 1 ≤ iter + (fuel + 1); omega
              · rw [if_neg hfin] at h
                have := ih tape' h0' h1' (pc' + 1) (iter + 1) (skipped + sk) r h
                omega

/-- C9: both the plain and the tokenized byte-machine return an iteration
count bounded by max_iter (the tokenized machine returns a result at all
only inside this bound). -/
theorem iterations_le_max_iter (bt : List Byte) (tt : List Token)
    (h0 h1 pc : ℕ) (z0 z1 z2 : ℤ) (maxIter : ℕ) :
    (emulate bt h0 h1 pc maxIter).iteration ≤ maxIter ∧
    (∀ r, emulate_w_tracer tt z0 z1 z2 maxIter = some r → r.iteration ≤ maxIter) := by
  constructor
  · have := emulateLoop_iteration_le maxIter bt h0 h1 pc 0 0
    simpa [emulate, emulateRun] using this
  · intro r hr
    have := tracerLoop_iteration_le maxIter tt (clampPos z0 tt.length).toNat
      (clampPos z1 tt.length).toNat (clampPos z2 tt.length).toNat 0 0 r hr
    omega

/-- Witness for C9: the tape "0" runs to Finished within 3 iterations on
both machines. -/
theorem iterations_le_max_iter_witness :
    (emulate [48] 0 0 0 3).iteration ≤ 3 ∧
      EmulatorResultWithTracer.iteration ⟨[⟨48⟩], 0, 0, 1, 1, 1, .Finished⟩ ≤ 3 :=
  ⟨(iterations_le_max_iter [48] [⟨48⟩] 0 0 0 0 0 0 3).1,
    (iterations_le_max_iter [48] [⟨48⟩] 0 0 0 0 0 0 3).2
      ⟨[⟨48⟩], 0, 0, 1, 1, 1, .Finished⟩ (by decide)⟩

/-- C10: on a non-empty token tape and arbitrary integer starting positions,
emulate_w_tracer clamps each position into [0, |t| - 1], behaves exactly as
if it had been called with the clamped (in-range) values, and completes
without any out-of-bounds tape access (the checked run returns some result,
never the out-of-bounds marker none). -/
theorem tracer_start_clamping (tt : List Token) (hne : tt ≠ [])
    (z0 z1 z2 : ℤ) (maxIter : ℕ) :
    ∃ p0 p1 p2 : ℕ,
      (p0 : ℤ) = clampPos z0 tt.length ∧ (p1 : ℤ) = clampPos z1 tt.length ∧
      (p2 : ℤ) = clampPos z2 tt.length ∧
      p0 < tt.length ∧ p1 < tt.length ∧ p2 < tt.length ∧
      emulate_w_tracer tt z0 z1 z2 maxIter =
        emulate_w_tracer tt (p0 : ℤ) (p1 : ℤ) (p2 : ℤ) maxIter ∧
      ∃ r, emulate_w_tracer tt z0 z1 z2 maxIter = some r := by
  have hn : 0 < tt.length := List.length_pos.mpr hne
  obtain ⟨hge0, hlt0⟩ := clampPos_nonneg_lt z0 tt.length hn
  obtain ⟨hge1, hlt1⟩ := clampPos_nonneg_lt z1 tt.length hn
  obtain ⟨hge2, hlt2⟩ := clampPos_nonneg_lt z2 tt.length hn
  refine ⟨(clampPos z0 tt.length).toNat, (clampPos z1 tt.length).toNat,
    (clampPos z2 tt.length).toNat, by omega, by omega, by omega,
    by omega, by omega, by omega, ?_, ?_⟩
  · rw [emulate_w_tracer, emulate_w_tracer,
      clampPos_of_lt _ tt.length (by omega), clampPos_of_lt _ tt.length (by omega),
      clampPos_of_lt _ tt.length (by omega)]
  · obtain ⟨r, hr, -⟩ := tracerLoop_corr maxIter tt (tokens_to_bytes tt)
      (clampPos z0 tt.length).toNat (clampPos z1 tt.length).toNat
      (clampPos z2 tt.length).toNat 0 0 rfl
      (by rw [tokens_to_bytes_length]; omega)
      (by rw [tokens_to_bytes_length]; omega)
      (by rw [tokens_to_bytes_length]; omega)
    exact ⟨r, hr⟩

/-- Witness for C10: a 2-byte token tape called with out-of-range positions
(-5, 7, 1). -/
theorem tracer_start_clamping_witness :
    ∃ p0 p1 p2 : ℕ,
      (p0 : ℤ) = clampPos (-5) (initialize_tokens [43, 48]).length ∧
      (p1 : ℤ) = clampPos 7 (initialize_tokens [43, 48]).length ∧
      (p2 : ℤ) = clampPos 1 (initialize_tokens [43, 48]).length ∧
      p0 < (initialize_tokens [43, 48]).length ∧
      p1 < (initialize_tokens [43, 48]).length ∧
      p2 < (initialize_tokens [43, 48]).length ∧
      emulate_w_tracer (initialize_tokens [43, 48]) (-5) 7 1 4 =
        emulate_w_tracer (initialize_tokens [43, 48]) (p0 : ℤ) (p1 : ℤ) (p2 : ℤ) 4 ∧
      ∃ r, emulate_w_tracer (initialize_tokens [43, 48]) (-5) 7 1 4 = some r :=
  tracer_start_clamping (initialize_tokens [43, 48]) (by decide) (-5) 7 1 4

lemma getD_set_self (l : List Token) (k : ℕ) (x : Token) (hk : k < l.length) :
    (l.set k x).getD k ⟨0⟩ = x := by
  rw [List.getD_eq_getElem?_getD, List.getElem?_set_self hk]
  rfl

lemma getD_set_ne (l : List Token) (k i : ℕ) (x : Token) (h : k ≠ i) :
    (l.set k x).getD i ⟨0⟩ = l.getD i ⟨0⟩ := by
  rw [List.getD_eq_getElem?_getD, List.getElem?_set_ne h, ← List.getD_eq_getElem?_getD]

/-- C7: frame property of one tracer instruction.  Whenever the dispatch
continues, every token of the new tape is (a) unchanged, or (b) at head0
under '+' or '-', with epoch and origin position preserved (only the byte
field changed), or (c) at head1 under '.', overwritten by the entire token
at head0, or (d) at head0 under ',', overwritten by the entire token at
head1.  No instruction changes the epoch or origin position of any token in
any other way. -/
theorem token_instruction_frame (tt : List Token) (h0 h1 pc : ℕ)
    (hpc : pc < tt.length) (hh0 : h0 < tt.length) (hh1 : h1 < tt.length)
    (tt' : List Token) (h0' h1' pc' sk : ℕ)
    (heq : execTokInstr tt h0 h1 pc = some (.next tt' h0' h1' pc' sk))
    (i : ℕ) (hi : i < tt.length) :
    tt'.getD i ⟨0⟩ = tt.getD i ⟨0⟩ ∨
    (((tt.getD pc ⟨0⟩).get_char = (43 : Byte) ∨ (tt.getD pc ⟨0⟩).get_char = (45 : Byte)) ∧
      i = h0 ∧
      (tt'.getD i ⟨0⟩).get_epoch = (tt.getD i ⟨0⟩).get_epoch ∧
      (tt'.getD i ⟨0⟩).get_position = (tt.getD i ⟨0⟩).get_position) ∨
    ((tt.getD pc ⟨0⟩).get_char = (46 : Byte) ∧ i = h1 ∧ tt'.getD i ⟨0⟩ = tt.getD h0 ⟨0⟩) ∨
    ((tt.getD pc ⟨0⟩).get_char = (44 : Byte) ∧ i = h0 ∧ tt'.getD i ⟨0⟩ = tt.getD h1 ⟨0⟩) := by
  have hptok := proj_getElem? tt pc hpc
  have h0tok := proj_getElem? tt h0 hh0
  have h1tok := proj_getElem? tt h1 hh1
  by_cases hc60 : (tt.getD pc ⟨0⟩).get_char = (60 : Byte)
  · have hTok : execTokInstr tt h0 h1 pc =
        some (.next tt ((h0 + tt.length - 1) % tt.length) h1 pc 0) := by
      simp only [execTokInstr, hptok]; rw [hc60]; simp [bffInstructions]
    rw [hTok] at heq; cases heq; exact Or.inl rfl
  by_cases hc62 : (tt.getD pc ⟨0⟩).get_char = (62 : Byte)
  · have hTok : execTokInstr tt h0 h1 pc =
        some (.next tt ((h0 + 1) % tt.length) h1 pc 0) := by
      simp only [execTokInstr, hptok]; rw [hc62]; simp [bffInstructions]
    rw [hTok] at heq; cases heq; exact Or.inl rfl
  by_cases hc123 : (tt.getD pc ⟨0⟩).get_char = (123 : Byte)
  · have hTok : execTokInstr tt h0 h1 pc =
        some (.next tt h0 ((h1 + tt.length - 1) % tt.length) pc 0) := by
      simp only [execTokInstr, hptok]; rw [hc123]; simp [bffInstructions]
    rw [hTok] at heq; cases heq; exact Or.inl rfl
  by_cases hc125 : (tt.getD pc ⟨0⟩).get_char = (125 : Byte)
  · have hTok : execTokInstr tt h0 h1 pc =
        some (.next tt h0 ((h1 + 1) % tt.length) pc 0) := by
      simp only [execTokInstr, hptok]; rw [hc125]; simp [bffInstructions]
    rw [hTok] at heq; cases heq; exact Or.inl rfl
  by_cases hc43 : (tt.getD pc ⟨0⟩).get_char = (43 : Byte)
  · have hTok : execTokInstr tt h0 h1 pc =
        some (.next (tt.set h0 ((tt.getD h0 ⟨0⟩).set_char ((tt.getD h0 ⟨0⟩).get_char + 1)))
          h0 h1 pc 0) := by
      simp only [execTokInstr, hptok, h0tok]; rw [hc43]; simp [bffInstructions]
    rw [hTok] at heq; cases heq
    by_cases hih0 : i = h0
    · subst hih0
      refine Or.inr (Or.inl ⟨Or.inl hc43, rfl, ?_, ?_⟩) <;>
        rw [getD_set_self tt i _ hi]
      · exact Token.get_epoch_set_char _ _
      · exact Token.get_position_set_char _ _
    · exact Or.inl (getD_set_ne tt h0 i _ (fun h => hih0 h.symm))
  by_cases hc45 : (tt.getD pc ⟨0⟩).get_char = (45 : Byte)
  · have hTok : execTokInstr tt h0 h1 pc =
        some (.next (tt.set h0 ((tt.getD h0 ⟨0⟩).set_char ((tt.getD h0 ⟨0⟩).get_char - 1)))
          h0 h1 pc 0) := by
      simp only [execTokInstr, hptok, h0tok]; rw [hc45]; simp [bffInstructions]
    rw [hTok] at heq; cases heq
    by_cases hih0 : i = h0
    · subst hih0
      refine Or.inr (Or.inl ⟨Or.inr hc45, rfl, ?_, ?_⟩) <;>
        rw [getD_set_self tt i _ hi]
      · exact Token.get_epoch_set_char _ _
      · exact Token.get_position_set_char _ _
    · exact Or.inl (getD_set_ne tt h0 i _ (fun h => hih0 h.symm))
  by_cases hc46 : (tt.getD pc ⟨0⟩).get_char = (46 : Byte)
  · have hTok : execTokInstr tt h0 h1 pc =
        some (.next (tt.set h1 (tt.getD h0 ⟨0⟩)) h0 h1 pc 0) := by
      simp only [execTokInstr, hptok, h0tok]; rw [hc46]
      rw [if_pos hh1]; simp [bffInstructions]
    rw [hTok] at heq; cases heq
    by_cases hih1 : i = h1
    · subst hih1
      exact Or.inr (Or.inr (Or.inl ⟨hc46, rfl, getD_set_self tt i _ hi⟩))
    · exact Or.inl (getD_set_ne tt h1 i _ (fun h => hih1 h.symm))
  by_cases hc44 : (tt.getD pc ⟨0⟩).get_char = (44 : Byte)
  · have hTok : execTokInstr tt h0 h1 pc =
        some (.next (tt.set h0 (tt.getD h1 ⟨0⟩)) h0 h1 pc 0) := by
      simp only [execTokInstr, hptok, h1tok]; rw [hc44]
      rw [if_pos hh0]; simp [bffInstructions]
    rw [hTok] at heq; cases heq
    by_cases hih0 : i = h0
    · subst hih0
      exact Or.inr (Or.inr (Or.inr ⟨hc44, rfl, getD_set_self tt i _ hi⟩))
    · exact Or.inl (getD_set_ne tt h0 i _ (fun h => hih0 h.symm))
  by_cases hc91 : (tt.getD pc ⟨0⟩).get_char = (91 : Byte)
  · by_cases hz : (tt.getD h0 ⟨0⟩).get_char = (48 : Byte)
    · rcases hscan : scanFwdTok tt (tt.length - (pc + 1)) (pc + 1) 1 with _ | j
      · have hTok : execTokInstr tt h0 h1 pc = some (.err .ErrorUnmatchedOpen) := by
          simp only [execTokInstr, hptok, h0tok]; rw [hc91, hz, hscan]
          simp [bffInstructions]
        rw [hTok] at heq; cases heq
      · have hTok : execTokInstr tt h0 h1 pc = some (.next tt h0 h1 j 0) := by
          simp only [execTokInstr, hptok, h0tok]; rw [hc91, hz, hscan]
          simp [bffInstructions]
        rw [hTok] at heq; cases heq; exact Or.inl rfl
    · have hTok : execTokInstr tt h0 h1 pc = some (.next tt h0 h1 pc 0) := by
        simp only [execTokInstr, hptok, h0tok]; rw [hc91, if_neg hz]
        simp [bffInstructions]
      rw [hTok] at heq; cases heq; exact Or.inl rfl
  by_cases hc93 : (tt.getD pc ⟨0⟩).get_char = (93 : Byte)
  · by_cases hz : (tt.getD h0 ⟨0⟩).get_char = (48 : Byte)
    · have hTok : execTokInstr tt h0 h1 pc = some (.next tt h0 h1 pc 0) := by
        simp only [execTokInstr, hptok, h0tok]
        rw [hc93, if_neg (not_not_intro hz)]; simp [bffInstructions]
      rw [hTok] at heq; cases heq; exact Or.inl rfl
    · rcases hscan : scanBwdTok tt pc 1 with _ | ⟨_ | j⟩
      · have hTok : execTokInstr tt h0 h1 pc = none := by
          simp only [execTokInstr, hptok, h0tok]; rw [hc93, if_pos hz, hscan]
          simp [bffInstructions]
        rw [hTok] at heq; cases heq
      · have hTok : execTokInstr tt h0 h1 pc = some (.err .ErrorUnmatchedClose) := by
          simp only [execTokInstr, hptok, h0tok]; rw [hc93, if_pos hz, hscan]
          simp [bffInstructions]
        rw [hTok] at heq; cases heq
      · have hTok : execTokInstr tt h0 h1 pc = some (.next tt h0 h1 j 0) := by
          simp only [execTokInstr, hptok, h0tok]; rw [hc93, if_pos hz, hscan]
          simp [bffInstructions]
        rw [hTok] at heq; cases heq; exact Or.inl rfl
  · have hcont : bffInstructions.contains ((tt.getD pc ⟨0⟩).get_char) = false := by
      have hnm : (tt.getD pc ⟨0⟩).get_char ∉ bffInstructions := by
        intro hm
        simp only [bffInstructions, List.mem_cons, List.mem_singleton] at hm
        rcases hm with h|h|h|h|h|h|h|h|h|h <;> simp_all
      simpa using hnm
    have hTok : execTokInstr tt h0 h1 pc = some (.next tt h0 h1 pc 1) := by
      simp only [execTokInstr, hptok]; rw [hcont]; simp
    rw [hTok] at heq; cases heq; exact Or.inl rfl

/-- Witness for C7: a '+' step on the token tape of "+0" changes only the
byte field of the token at head0 = 0. -/
theorem token_instruction_frame_witness :
    List.getD [Token.mk 44, Token.mk 304] 0 ⟨0⟩ =
      List.getD [Token.mk 43, Token.mk 304] 0 ⟨0⟩ ∨
    (((List.getD [Token.mk 43, Token.mk 304] 0 ⟨0⟩).get_char = (43 : Byte) ∨
      (List.getD [Token.mk 43, Token.mk 304] 0 ⟨0⟩).get_char = (45 : Byte)) ∧
      (0 : ℕ) = 0 ∧
      (List.getD [Token.mk 44, Token.mk 304] 0 ⟨0⟩).get_epoch =
        (List.getD [Token.mk 43, Token.mk 304] 0 ⟨0⟩).get_epoch ∧
      (List.getD [Token.mk 44, Token.mk 304] 0 ⟨0⟩).get_position =
        (List.getD [Token.mk 43, Token.mk 304] 0 ⟨0⟩).get_position) ∨
    ((List.getD [Token.mk 43, Token.mk 304] 0 ⟨0⟩).get_char = (46 : Byte) ∧
      (0 : ℕ) = 1 ∧
      List.getD [Token.mk 44, Token.mk 304] 0 ⟨0⟩ =
        List.getD [Token.mk 43, Token.mk 304] 0 ⟨0⟩) ∨
    ((List.getD [Token.mk 43, Token.mk 304] 0 ⟨0⟩).get_char = (44 : Byte) ∧
      (0 : ℕ) = 0 ∧
      List.getD [Token.mk 44, Token.mk 304] 0 ⟨0⟩ =
        List.getD [Token.mk 43, Token.mk 304] 1 ⟨0⟩) :=
  token_instruction_frame [Token.mk 43, Token.mk 304] 0 1 0
    (by decide) (by decide) (by decide)
    [Token.mk 44, Token.mk 304] 0 1 0 0 (by decide) 0 (by decide)

/-! ### Lineage analyzer similarity filter (src/src/forward_pass_analysis.cpp)

Programs are byte strings; cell records come from the pairing CSV.  The C++
similarity is a double matches / prog1.size() compared against the literal
0.9; we model the value exactly in ℚ.  At the decisive point of claim C4
(similarity exactly 0.9) the rational and the IEEE comparison agree: both
9.0/10.0 and the literal 0.9 round to the same double, and the comparison
is strict in both models. -/

/-- CellData of forward_pass_analysis.cpp: program plus pair-partner
coordinates from the pairing snapshot ((-1, -1) = mutation-only). -/
structure CellData where
  program : List Byte
  combined_x : ℤ
  combined_y : ℤ
deriving DecidableEq, Repr

/-- ProgramLocation of forward_pass_analysis.cpp. -/
structure ProgramLocation where
  epoch : ℤ
  grid_x : ℤ
  grid_y : ℤ
  program : List Byte
deriving DecidableEq, Repr

/-- get_neighboors: the 13-cell expanded neighborhood (middle, the four
distance-1 cells, the four distance-2 axis cells, the four corners). -/
def get_neighboors (grid_x grid_y : ℤ) : List (ℤ × ℤ) :=
  [(grid_x, grid_y),
   (grid_x - 1, grid_y), (grid_x + 1, grid_y),
   (grid_x, grid_y - 1), (grid_x, grid_y + 1),
   (grid_x - 2, grid_y), (grid_x + 2, grid_y),
   (grid_x, grid_y - 2), (grid_x, grid_y + 2),
   (grid_x - 1, grid_y - 1), (grid_x + 1, grid_y + 1),
   (grid_x + 1, grid_y - 1), (grid_x - 1, grid_y + 1)]

/-- calculate_similarity: matches / length for equal-length programs, else
0; empty programs give 0. -/
def calculate_similarity (prog1 prog2 : List Byte) : ℚ :=
  if prog1.length ≠ prog2.length then 0
  else if prog1.isEmpty then 0
  else ((prog1.zip prog2).countP (fun p => p.1 == p.2) : ℚ) / prog1.length

/-- The candidate-collection loop body of find_replicators (lines 335-403)
for a single replicator location (rep_x, rep_y, rep_program): walk the 13
neighbors in the next epoch's cell map, apply the bounds check, and emit a
candidate for Case 1 (neighbor paired with the replicator cell: the
neighbor and the replicator's own cell) and Case 2 (mutation-only at the
replicator's cell), each guarded by similarity > 0.9. -/
def collect_candidates (grid_width grid_height epoch rep_x rep_y : ℤ)
    (rep_program : List Byte) (next_cells : ℤ × ℤ → Option CellData) :
    List ProgramLocation :=
  (get_neighboors rep_x rep_y).flatMap (fun nb =>
    if nb.1 < 0 ∨ grid_width ≤ nb.1 ∨ nb.2 < 0 ∨ grid_height ≤ nb.2 then []
    else
      match next_cells nb with
      | none => []
      | some cell =>
          (if cell.combined_x = rep_x ∧ cell.combined_y = rep_y then
            (if calculate_similarity rep_program cell.program > 9/10 then
              [⟨epoch + 1, nb.1, nb.2, cell.program⟩] else []) ++
            (match next_cells (rep_x, rep_y) with
             | none => []
             | some rep_cell =>
                if calculate_similarity rep_program rep_cell.program > 9/10 then
                  [⟨epoch + 1, rep_x, rep_y, rep_cell.program⟩] else [])
          else []) ++
          (if cell.combined_x = -1 ∧ cell.combined_y = -1 ∧
              nb.1 = rep_x ∧ nb.2 = rep_y then
            (if calculate_similarity rep_program cell.program > 9/10 then
              [⟨epoch + 1, nb.1, nb.2, cell.program⟩] else [])
          else []))

/-- C4 counterexample: a candidate whose similarity to the replicator is
exactly 0.9 (9 matching bytes out of 10) is dropped by the filter: the
collection loop emits nothing, because the code compares with strict >. -/
theorem similarity_filter_counterexample :
    calculate_similarity [48, 48, 48, 48, 48, 48, 48, 48, 48, 48]
      [43, 48, 48, 48, 48, 48, 48, 48, 48, 48] = 9 / 10 ∧
    collect_candidates 5 5 16324 2 2 [48, 48, 48, 48, 48, 48, 48, 48, 48, 48]
      (fun pos => if pos = (2, 3) then
        some ⟨[43, 48, 48, 48, 48, 48, 48, 48, 48, 48], 2, 2⟩ else none) = [] := by
  have hcount : (([48, 48, 48, 48, 48, 48, 48, 48, 48, 48] : List Byte).zip
      ([43, 48, 48, 48, 48, 48, 48, 48, 48, 48] : List Byte)).countP
      (fun p => p.1 == p.2) = 9 := by decide
  have hsim : calculate_similarity [48, 48, 48, 48, 48, 48, 48, 48, 48, 48]
      [43, 48, 48, 48, 48, 48, 48, 48, 48, 48] = 9 / 10 := by
    simp [calculate_similarity, hcount]
  refine ⟨hsim, ?_⟩
  simp [collect_candidates, get_neighboors, hsim, Prod.ext_iff]

/-- C4 amended: the forward-pass filter keeps a candidate if and only if
its similarity to the current replicator is strictly greater than 0.9:
every emitted candidate satisfies similarity > 0.9, and every in-bounds
neighbor paired with the replicator cell whose program has similarity > 0.9
is emitted; similarity exactly 0.9 is rejected (see the counterexample). -/
theorem similarity_filter_amended (W H e rx ry : ℤ) (p : List Byte)
    (cells : ℤ × ℤ → Option CellData) :
    (∀ c ∈ collect_candidates W H e rx ry p cells,
      calculate_similarity p c.program > 9 / 10) ∧
    (∀ nx ny cell, (nx, ny) ∈ get_neighboors rx ry →
      ¬(nx < 0 ∨ W ≤ nx ∨ ny < 0 ∨ H ≤ ny) →
      cells (nx, ny) = some cell →
      cell.combined_x = rx ∧ cell.combined_y = ry →
      calculate_similarity p cell.program > 9 / 10 →
      (⟨e + 1, nx, ny, cell.program⟩ : ProgramLocation) ∈
        collect_candidates W H e rx ry p cells) := by
  constructor
  · intro c hc
    simp only [collect_candidates, List.mem_flatMap] at hc
    obtain ⟨nb, -, hc⟩ := hc
    split at hc
    · simp at hc
    · rcases hcell : cells nb with - | cell
      · simp only [hcell] at hc
        exact absurd hc (List.not_mem_nil c)
      · simp only [hcell] at hc
        rcases List.mem_append.mp hc with hc1 | hc2
        · split at hc1
          · rcases List.mem_append.mp hc1 with ha | hb
            · split at ha
              next hguard =>
                obtain rfl := List.mem_singleton.mp ha
                exact hguard
              next => simp at ha
            · rcases hrep : cells (rx, ry) with - | rep_cell
              · simp only [hrep] at hb
                exact absurd hb (List.not_mem_nil c)
              · simp only [hrep] at hb
                split at hb
                next hguard =>
                  obtain rfl := List.mem_singleton.mp hb
                  exact hguard
                next => simp at hb
          · simp at hc1
        · split at hc2
          · split at hc2
            next hguard =>
              obtain rfl := List.mem_singleton.mp hc2
              exact hguard
            next => simp at hc2
          · simp at hc2
  · intro nx ny cell hmem hbounds hcell hpair hsim
    simp only [collect_candidates, List.mem_flatMap]
    refine ⟨(nx, ny), hmem, ?_⟩
    rw [if_neg hbounds, hcell]
    apply List.mem_append_left
    rw [if_pos hpair]
    apply List.mem_append_left
    rw [if_pos hsim]
    exact List.mem_singleton.mpr rfl

/-- Witness for C4 amended: an identical neighbor program (similarity 1) at
(2, 3), paired with the replicator at (2, 2), is emitted. -/
theorem similarity_filter_amended_witness :
    (⟨16324 + 1, 2, 3, [48, 48, 48, 48, 48, 48, 48, 48, 48, 48]⟩ : ProgramLocation) ∈
      collect_candidates 5 5 16324 2 2 [48, 48, 48, 48, 48, 48, 48, 48, 48, 48]
        (fun pos => if pos = (2, 3) then
          some ⟨[48, 48, 48, 48, 48, 48, 48, 48, 48, 48], 2, 2⟩ else none) :=
  (similarity_filter_amended 5 5 16324 2 2 [48, 48, 48, 48, 48, 48, 48, 48, 48, 48]
      (fun pos => if pos = (2, 3) then
        some ⟨[48, 48, 48, 48, 48, 48, 48, 48, 48, 48], 2, 2⟩ else none)).2
    2 3 ⟨[48, 48, 48, 48, 48, 48, 48, 48, 48, 48], 2, 2⟩ (by decide) (by decide)
    (by decide) (by decide)
    (by
      have hcount : (([48, 48, 48, 48, 48, 48, 48, 48, 48, 48] : List Byte).zip
          ([48, 48, 48, 48, 48, 48, 48, 48, 48, 48] : List Byte)).countP
          (fun p => p.1 == p.2) = 10 := by decide
      show calculate_similarity [48, 48, 48, 48, 48, 48, 48, 48, 48, 48]
        [48, 48, 48, 48, 48, 48, 48, 48, 48, 48] > 9 / 10
      simp [calculate_similarity, hcount]
      norm_num)

/-! ### Grid spatial pairing (src/src/grid.cpp, Grid::create_spatial_pairs)

The RNG is abstracted: cell_order stands for the std::shuffle result (the
theorem quantifies over every permutation of the cell indices) and sel
supplies the uniform_int_distribution draw of each pairing step, reduced
modulo the number of available neighbors so that every possible choice is
reached as sel ranges over all streams.  Cell indices are C++ ints; the
division c / width and remainder c % width are only ever applied to the
non-negative in-range indices of the order, where Lean's Euclidean / and %
agree with the C++ truncating division. -/

/-- Grid::index: flat index y * width + x. -/
def grid_index (width : ℕ) (x y : ℤ) : ℤ := y * (width : ℤ) + x

/-- Grid::get_von_neumann_neighbors: all cells at Manhattan distance in
[1, radius] that lie inside the grid, visited with dy outer and dx inner
from -radius to radius (shifted through List.range (2 radius + 1)). -/
def get_von_neumann_neighbors (width height : ℕ) (x y : ℤ) (radius : ℕ) :
    List (ℤ × ℤ) :=
  (List.range (2 * radius + 1)).flatMap (fun dyi =>
    (List.range (2 * radius + 1)).filterMap (fun dxi =>
      let dy : ℤ := (dyi : ℤ) - radius
      let dx : ℤ := (dxi : ℤ) - radius
      let manhattan_dist := dx.natAbs + dy.natAbs
      if manhattan_dist = 0 ∨ radius < manhattan_dist then none
      else
        let nx := x + dx
        let ny := y + dy
        if 0 ≤ nx ∧ nx < (width : ℤ) ∧ 0 ≤ ny ∧ ny < (height : ℤ) then
          some (nx, ny)
        else none))

/-- The processing loop of Grid::create_spatial_pairs over the shuffled
cell order, threading the taken[] bitmap: skip taken cells; pair an
untaken cell with a random untaken neighbor, marking both; emit the
mutation-only record (-1, c) when no neighbor is available. -/
def create_spatial_pairs_go (width height radius : ℕ) (sel : ℕ → ℕ)
    (taken : ℤ → Bool) : List ℤ → List (ℤ × ℤ)
  | [] => []
  | c :: rest =>
      if taken c then create_spatial_pairs_go width height radius sel taken rest
      else
        let y := c / (width : ℤ)
        let x := c % (width : ℤ)
        let neighbors := get_von_neumann_neighbors width height x y radius
        let available_neighbors :=
          (neighbors.map (fun p => grid_index width p.1 p.2)).filter (fun i => !taken i)
        if available_neighbors.isEmpty then
          (-1, c) :: create_spatial_pairs_go width height radius sel
            (fun i => if i = c then true else taken i) rest
        else
          let chosen := available_neighbors.getD
            (sel rest.length % available_neighbors.length) 0
          (c, chosen) :: create_spatial_pairs_go width height radius sel
            (fun i => if i = c ∨ i = chosen then true else taken i) rest

/-- Grid::create_spatial_pairs: process every cell of the shuffled order
starting from the all-false taken bitmap. -/
def create_spatial_pairs (width height radius : ℕ) (sel : ℕ → ℕ)
    (cell_order : List ℤ) : List (ℤ × ℤ) :=
  create_spatial_pairs_go width height radius sel (fun _ => false) cell_order

/-- Cells mentioned by one pair record: both components of a proper pair,
the single cell of a mutation-only record (-1, c). -/
def recordCells (pr : ℤ × ℤ) : Multiset ℤ :=
  if pr.1 = -1 then {pr.2} else {pr.1, pr.2}

/-- All cell occurrences across the emitted records, with multiplicity. -/
def pairingCells (l : List (ℤ × ℤ)) : Multiset ℤ := (l.map recordCells).sum

/-- The cell a record was emitted for: the first component of a proper
pair, the cell of a mutation-only record. -/
def visitedCell (pr : ℤ × ℤ) : ℤ := if pr.1 = -1 then pr.2 else pr.1

lemma vn_mem_spec (width height : ℕ) (x y : ℤ) (radius : ℕ) :
    ∀ p ∈ get_von_neumann_neighbors width height x y radius,
      0 ≤ p.1 ∧ p.1 < (width : ℤ) ∧ 0 ≤ p.2 ∧ p.2 < (height : ℤ) ∧
        ¬(p.1 = x ∧ p.2 = y) := by
  intro p hp
  simp only [get_von_neumann_neighbors, List.mem_flatMap, List.mem_filterMap] at hp
  obtain ⟨dyi, -, dxi, -, hp⟩ := hp
  split at hp
  · cases hp
  next hdist =>
    split at hp
    next hb =>
      cases hp
      refine ⟨hb.1, hb.2.1, hb.2.2.1, hb.2.2.2, ?_⟩
      rintro ⟨h1, h2⟩
      exact hdist (Or.inl (by omega))
    next => cases hp

lemma grid_index_div_emod (width : ℕ) (hw : 0 < (width : ℤ)) (x y : ℤ)
    (hx0 : 0 ≤ x) (hxw : x < (width : ℤ)) :
    grid_index width x y / (width : ℤ) = y ∧ grid_index width x y % (width : ℤ) = x :=
  (Int.ediv_emod_unique hw).mpr ⟨by rw [grid_index]; ring, hx0, hxw⟩

lemma grid_index_bounds (width height : ℕ) (px py : ℤ)
    (h1 : 0 ≤ px) (h2 : px < (width : ℤ)) (h3 : 0 ≤ py) (h4 : py < (height : ℤ)) :
    0 ≤ grid_index width px py ∧ grid_index width px py < ((width * height : ℕ) : ℤ) := by
  have hw0 : (0 : ℤ) ≤ width := by positivity
  have hmul : 0 ≤ py * (width : ℤ) := mul_nonneg h3 hw0
  have h5 : (py + 1) * (width : ℤ) ≤ (height : ℤ) * width :=
    mul_le_mul_of_nonneg_right (by omega) hw0
  have hcast : ((width * height : ℕ) : ℤ) = (width : ℤ) * height := by push_cast; ring
  constructor
  · rw [grid_index]; omega
  · rw [grid_index, hcast]
    calc py * (width : ℤ) + px < py * width + width := by omega
      _ = (py + 1) * width := by ring
      _ ≤ (height : ℤ) * width := h5
      _ = (width : ℤ) * height := by ring

lemma getD_mod_mem (l : List ℤ) (k : ℕ) (hne : l ≠ []) :
    l.getD (k % l.length) 0 ∈ l := by
  have hlen : 0 < l.length := List.length_pos.mpr hne
  have hk : k % l.length < l.length := Nat.mod_lt _ hlen
  rw [List.getD_eq_getElem?_getD, List.getElem?_eq_getElem hk]
  exact List.getElem_mem hk

/-- Any available neighbor of an in-range cell c is in range, untaken, and
a different cell than c. -/
lemma avail_spec (width height radius : ℕ) (taken : ℤ → Bool) (c ch : ℤ)
    (hc0 : 0 ≤ c) (hcWH : c < ((width * height : ℕ) : ℤ))
    (hch : ch ∈ ((get_von_neumann_neighbors width height (c % (width : ℤ))
        (c / (width : ℤ)) radius).map
      (fun p => grid_index width p.1 p.2)).filter (fun i => !taken i)) :
    0 ≤ ch ∧ ch < ((width * height : ℕ) : ℤ) ∧ taken ch = false ∧ ch ≠ c := by
  have hW : 0 < (width : ℤ) := by
    rcases Nat.eq_zero_or_pos width with h | h
    · subst h; simp at hcWH; omega
    · exact_mod_cast h
  obtain ⟨hmap, htk⟩ := List.mem_filter.mp hch
  obtain ⟨p, hpmem, hpi⟩ := List.mem_map.mp hmap
  obtain ⟨hp1, hp2, hp3, hp4, hpne⟩ :=
    vn_mem_spec width height (c % (width : ℤ)) (c / (width : ℤ)) radius p hpmem
  subst hpi
  obtain ⟨hb1, hb2⟩ := grid_index_bounds width height p.1 p.2 hp1 hp2 hp3 hp4
  refine ⟨hb1, hb2, by simpa using htk, ?_⟩
  intro he
  have hd := grid_index_div_emod width hW p.1 p.2 hp1 hp2
  rw [he] at hd
  exact hpne ⟨hd.2.symm, hd.1.symm⟩

/-- Counting invariant of the pairing loop: a cell occurs in the output
exactly once if it is an in-range cell not yet taken (provided every
untaken in-range cell is still waiting in the order), else zero times. -/
lemma spatial_go_count (width height radius : ℕ) (sel : ℕ → ℕ) :
    ∀ (order : List ℤ) (taken : ℤ → Bool),
    (∀ i ∈ order, 0 ≤ i ∧ i < ((width * height : ℕ) : ℤ)) →
    (∀ i : ℤ, 0 ≤ i → i < ((width * height : ℕ) : ℤ) → taken i = false → i ∈ order) →
    ∀ j : ℤ,
      (pairingCells (create_spatial_pairs_go width height radius sel taken order)).count j =
        if 0 ≤ j ∧ j < ((width * height : ℕ) : ℤ) ∧ taken j = false then 1 else 0 := by
  intro order
  induction order with
  | nil =>
      intro taken hrange hcover j
      simp only [create_spatial_pairs_go, pairingCells, List.map_nil, List.sum_nil,
        Multiset.count_zero]
      split
      next hj => exact absurd (hcover j hj.1 hj.2.1 hj.2.2) (List.not_mem_nil j)
      next => rfl
  | cons c rest ih =>
      intro taken hrange hcover j
      have hrest : ∀ i ∈ rest, 0 ≤ i ∧ i < ((width * height : ℕ) : ℤ) :=
        fun i hi => hrange i (List.mem_cons_of_mem c hi)
      by_cases htc : taken c = true
      · simp only [create_spatial_pairs_go, htc, if_true]
        apply ih taken hrest _ j
        intro i h1 h2 h3
        rcases List.mem_cons.mp (hcover i h1 h2 h3) with h | h
        · subst h; rw [htc] at h3; cases h3
        · exact h
      · have htc' : taken c = false := by simp at htc; exact htc
        have hcr := hrange c (List.mem_cons_self c rest)
        simp only [create_spatial_pairs_go, htc', Bool.false_eq_true, if_false]
        set avail := ((get_von_neumann_neighbors width height (c % (width : ℤ))
            (c / (width : ℤ)) radius).map
          (fun p => grid_index width p.1 p.2)).filter (fun i => !taken i) with havail
        by_cases hav : avail.isEmpty = true
        · rw [if_pos hav]
          have hIH := ih (fun i => if i = c then true else taken i) hrest ?cover j
          case cover =>
            intro i h1 h2 h3
            dsimp only at h3
            have hic : ¬ i = c := by
              intro h; rw [if_pos h] at h3; cases h3
            rw [if_neg hic] at h3
            rcases List.mem_cons.mp (hcover i h1 h2 h3) with h | h
            · exact absurd h hic
            · exact h
          simp only [pairingCells, List.map_cons, List.sum_cons, Multiset.count_add]
          simp only [pairingCells] at hIH
          rw [hIH]
          by_cases hjc : j = c
          · subst hjc
            have h2' : j < (width : ℤ) * height := by push_cast at hcr; exact hcr.2
            simp [recordCells, hcr.1, h2', htc']
          · simp [recordCells, hjc]
        · rw [if_neg hav]
          have hne : avail ≠ [] := by
            intro h; rw [h] at hav; exact hav rfl
          set chosen := avail.getD (sel rest.length % avail.length) 0 with hchosen
          have hmem : chosen ∈ avail := getD_mod_mem avail (sel rest.length) hne
          have hs := avail_spec width height radius taken c chosen hcr.1 hcr.2
            (havail ▸ hmem)
          have hIH := ih (fun i => if i = c ∨ i = chosen then true else taken i)
            hrest ?cover2 j
          case cover2 =>
            intro i h1 h2 h3
            dsimp only at h3
            have hic : ¬ (i = c ∨ i = chosen) := by
              intro h; rw [if_pos h] at h3; cases h3
            rw [if_neg hic] at h3
            rcases List.mem_cons.mp (hcover i h1 h2 h3) with h | h
            · exact absurd (Or.inl h) hic
            · exact h
          simp only [pairingCells, List.map_cons, List.sum_cons, Multiset.count_add]
          simp only [pairingCells] at hIH
          rw [hIH]
          have hcne : ¬ c = -1 := by omega
          by_cases hjc : j = c
          · subst hjc
            have hjch : ¬ j = chosen := fun h => hs.2.2.2 h.symm
            have h2' : j < (width : ℤ) * height := by push_cast at hcr; exact hcr.2
            simp [recordCells, hcne, hjch, hcr.1, h2', htc']
          · by_cases hjch : j = chosen
            · subst hjch
              have h2' := hs.2.1
              push_cast at h2'
              simp [recordCells, hcne, hjc, hs.2.2.1, hs.1, h2']
            · simp [recordCells, hcne, hjc, hjch]

lemma visitedCell_pair (a b : ℤ) (h : ¬ a = -1) : visitedCell (a, b) = a := by
  simp [visitedCell, h]

lemma visitedCell_mut (b : ℤ) : visitedCell (-1, b) = b := by
  simp [visitedCell]

/-- The emitted records follow the visit order: the cells they were emitted
for form a subsequence of the (shuffled) order. -/
lemma spatial_go_visited (width height radius : ℕ) (sel : ℕ → ℕ) :
    ∀ (order : List ℤ) (taken : ℤ → Bool), (∀ i ∈ order, 0 ≤ i) →
    ((create_spatial_pairs_go width height radius sel taken order).map
      visitedCell).Sublist order := by
  intro order
  induction order with
  | nil => intro taken _; simp [create_spatial_pairs_go]
  | cons c rest ih =>
      intro taken hpos
      have hpos' : ∀ i ∈ rest, 0 ≤ i := fun i hi => hpos i (List.mem_cons_of_mem c hi)
      by_cases htc : taken c = true
      · simp only [create_spatial_pairs_go, htc, if_true]
        exact (ih taken hpos').cons c
      · have htc' : taken c = false := by simp at htc; exact htc
        have hc0 := hpos c (List.mem_cons_self c rest)
        simp only [create_spatial_pairs_go, htc', Bool.false_eq_true, if_false]
        split
        · rw [List.map_cons, visitedCell_mut]
          exact (ih _ hpos').cons₂ c
        · rw [List.map_cons, visitedCell_pair c _ (by omega)]
          exact (ih _ hpos').cons₂ c

/-- A proper pair never pairs a cell with itself. -/
lemma spatial_go_proper (width height radius : ℕ) (sel : ℕ → ℕ) :
    ∀ (order : List ℤ) (taken : ℤ → Bool),
    (∀ i ∈ order, 0 ≤ i ∧ i < ((width * height : ℕ) : ℤ)) →
    ∀ pr ∈ create_spatial_pairs_go width height radius sel taken order,
      pr.1 ≠ -1 → pr.1 ≠ pr.2 := by
  intro order
  induction order with
  | nil => intro taken _ pr hpr; simp [create_spatial_pairs_go] at hpr
  | cons c rest ih =>
      intro taken hrange pr hpr hne
      have hrest : ∀ i ∈ rest, 0 ≤ i ∧ i < ((width * height : ℕ) : ℤ) :=
        fun i hi => hrange i (List.mem_cons_of_mem c hi)
      by_cases htc : taken c = true
      · simp only [create_spatial_pairs_go, htc, if_true] at hpr
        exact ih taken hrest pr hpr hne
      · have htc' : taken c = false := by simp at htc; exact htc
        have hcr := hrange c (List.mem_cons_self c rest)
        simp only [create_spatial_pairs_go, htc', Bool.false_eq_true, if_false] at hpr
        set avail := ((get_von_neumann_neighbors width height (c % (width : ℤ))
            (c / (width : ℤ)) radius).map
          (fun p => grid_index width p.1 p.2)).filter (fun i => !taken i) with havail
        by_cases hav : avail.isEmpty = true
        · rw [if_pos hav] at hpr
          rcases List.mem_cons.mp hpr with h | h
          · subst h; exact absurd rfl hne
          · exact ih _ hrest pr h hne
        · rw [if_neg hav] at hpr
          set chosen := avail.getD (sel rest.length % avail.length) 0 with hchosen
          rcases List.mem_cons.mp hpr with h | h
          · subst h
            have hmem : chosen ∈ avail := getD_mod_mem avail (sel rest.length)
              (by intro hh; rw [hh] at hav; exact hav rfl)
            have hs := avail_spec width height radius taken c chosen hcr.1 hcr.2
              (havail ▸ hmem)
            exact fun he => hs.2.2.2 he.symm
          · exact ih _ hrest pr h hne

/-- C6: for every grid, every radius, every selection stream and every
permutation of the cell indices, the pairing mentions every cell exactly
once across all records (so the proper pairs are a matching and no cell is
repeated), the emitted records follow the permutation order (the first
component of a proper pair is the cell visited), and no proper pair links a
cell to itself. -/
theorem spatial_pairs_partition (width height radius : ℕ) (hr : 1 ≤ radius)
    (sel : ℕ → ℕ) (cell_order : List ℤ)
    (hperm : cell_order.Perm ((List.range (width * height)).map (fun n : ℕ => (n : ℤ)))) :
    pairingCells (create_spatial_pairs width height radius sel cell_order) =
      (((List.range (width * height)).map (fun n : ℕ => (n : ℤ)) : List ℤ) : Multiset ℤ) ∧
    ((create_spatial_pairs width height radius sel cell_order).map
      visitedCell).Sublist cell_order ∧
    ∀ pr ∈ create_spatial_pairs width height radius sel cell_order,
      pr.1 ≠ -1 → pr.1 ≠ pr.2 := by
  have hmemiff : ∀ i : ℤ,
      i ∈ cell_order ↔ 0 ≤ i ∧ i < ((width * height : ℕ) : ℤ) := by
    intro i
    rw [hperm.mem_iff, List.mem_map]
    constructor
    · rintro ⟨n, hn, rfl⟩
      rw [List.mem_range] at hn
      exact ⟨by positivity, by exact_mod_cast hn⟩
    · rintro ⟨h0, hN⟩
      exact ⟨i.toNat, List.mem_range.mpr (by omega), by omega⟩
  have hrange : ∀ i ∈ cell_order, 0 ≤ i ∧ i < ((width * height : ℕ) : ℤ) :=
    fun i hi => (hmemiff i).mp hi
  have hcover : ∀ i : ℤ, 0 ≤ i → i < ((width * height : ℕ) : ℤ) →
      (fun _ : ℤ => false) i = false → i ∈ cell_order :=
    fun i h1 h2 _ => (hmemiff i).mpr ⟨h1, h2⟩
  refine ⟨?_, spatial_go_visited width height radius sel cell_order _
      (fun i hi => (hrange i hi).1),
    spatial_go_proper width height radius sel cell_order _ hrange⟩
  apply Multiset.ext.mpr
  intro j
  rw [create_spatial_pairs,
    spatial_go_count width height radius sel cell_order (fun _ => false) hrange hcover j,
    Multiset.coe_count]
  by_cases hj : 0 ≤ j ∧ j < ((width * height : ℕ) : ℤ)
  · rw [if_pos ⟨hj.1, hj.2, rfl⟩]
    have hmem : j ∈ (List.range (width * height)).map (fun n : ℕ => (n : ℤ)) :=
      List.mem_map.mpr ⟨j.toNat, List.mem_range.mpr (by omega), by omega⟩
    have hnd : ((List.range (width * height)).map (fun n : ℕ => (n : ℤ))).Nodup :=
      (List.nodup_range (width * height)).map (fun a b h => by exact_mod_cast h)
    exact (List.count_eq_one_of_mem hnd hmem).symm
  · rw [if_neg (fun h => hj ⟨h.1, h.2.1⟩)]
    have hnmem : j ∉ (List.range (width * height)).map (fun n : ℕ => (n : ℤ)) := by
      intro hm
      obtain ⟨n, hn, rfl⟩ := List.mem_map.mp hm
      rw [List.mem_range] at hn
      exact hj ⟨by positivity, by exact_mod_cast hn⟩
    exact (List.count_eq_zero_of_not_mem hnmem).symm

/-- Witness for C6: a 2 x 1 grid with radius 1 and the identity order pairs
cell 0 with its only neighbor 1. -/
theorem spatial_pairs_partition_witness :
    pairingCells (create_spatial_pairs 2 1 1 (fun _ => 0) [0, 1]) =
      (((List.range (2 * 1)).map (fun n : ℕ => (n : ℤ)) : List ℤ) : Multiset ℤ) ∧
    ((create_spatial_pairs 2 1 1 (fun _ => 0) [0, 1]).map visitedCell).Sublist [0, 1] ∧
    ∀ pr ∈ create_spatial_pairs 2 1 1 (fun _ => 0) [0, 1], pr.1 ≠ -1 → pr.1 ≠ pr.2 :=
  spatial_pairs_partition 2 1 1 (by decide) (fun _ => 0) [0, 1] (by decide)

end BFF
